import Mathlib

set_option maxRecDepth 8000

/-!
Shallow embedding of the chunk-cache accountant (FlatAccnt) of the
metrictank repository, file accnt/flat_accnt.go, together with proofs of
the specification claims about it.

Modelling conventions:
* Go uint64 counter values are Nat values kept below 2 ^ 64; the wrap-around
  arithmetic of AddUint64 / DecUint64 / total updates is made explicit with
  uadd and usub.
* Go maps are association lists with unique keys (alGet / alSet / alErase
  mirror map lookup, assignment and delete). Iteration order of Go maps is
  unspecified; it is only ever used in places where the result does not
  depend on it (evict sorts the collected keys, delMet performs deletions
  that commute).
* The LRU (Recency Index) implementation lives in a file that is not part
  of the sources at hand; it is modelled from the specification, section
  4.A, as a list ordered from least recently used to most recently used.
* The stats counters (cacheSizeUsed and friends) are fields of the state;
  the event counters are unbounded Nat since only increment counts matter
  here, while cacheSizeUsed follows uint64 wrap-around arithmetic.
* The evict queue is modelled as the list of all targets pushed so far, in
  push order.
-/

namespace Accnt

/-- 2 ^ 64, the modulus of Go uint64 arithmetic. -/
def U64 : Nat := 2 ^ 64

/-- Wrap-around addition of uint64 values (AddUint64). -/
def uadd (a b : Nat) : Nat := (a + b) % U64

/-- Wrap-around subtraction of uint64 values (DecUint64, total - size). -/
def usub (a b : Nat) : Nat := (a + U64 - b % U64) % U64

/-- EvictTarget identifies one cached chunk: a metric key and a chunk ts. -/
structure EvictTarget where
  Metric : String
  Ts : Nat
deriving DecidableEq, Repr

/-- Modelled from the spec: the Recency Index (LRU) implementation is not
among the sources at hand (only its uses in flat_accnt.go are).  Spec 4.A:
an ordered set of chunk identifiers by last-touch time, least recently used
first; touch moves or inserts at the most-recently-used end, del removes if
present, pop removes and returns the least-recently-used element. -/
structure LRU where
  items : List EvictTarget
deriving DecidableEq, Repr

/-- Modelled from the spec (4.A): touch moves the id to the MRU end if
present, otherwise inserts it there. -/
def LRU.touch (l : LRU) (e : EvictTarget) : LRU :=
  LRU.mk ((l.items.filter (fun x => x ≠ e)) ++ [e])

/-- Modelled from the spec (4.A): del removes the id if present. -/
def LRU.del (l : LRU) (e : EvictTarget) : LRU :=
  LRU.mk (l.items.filter (fun x => x ≠ e))

/-- Modelled from the spec (4.A): pop removes and returns the least
recently used id, or none when empty. -/
def LRU.pop (l : LRU) : Option EvictTarget × LRU :=
  match l.items with
  | [] => (none, l)
  | x :: xs => (some x, LRU.mk xs)

/-- Modelled from the spec (4.A): reset discards all entries. -/
def LRU.reset (_ : LRU) : LRU := LRU.mk []

/-- NewLRU returns an empty Recency Index. -/
def NewLRU : LRU := LRU.mk []

/-- Go map lookup on an association list. -/
def alGet {α β : Type} [DecidableEq α] (k : α) : List (α × β) → Option β
  | [] => none
  | p :: rest => if p.1 = k then some p.2 else alGet k rest

/-- Go map assignment: replace the binding of k if present, else append. -/
def alSet {α β : Type} [DecidableEq α] (k : α) (v : β) : List (α × β) → List (α × β)
  | [] => [(k, v)]
  | p :: rest => if p.1 = k then (k, v) :: rest else p :: alSet k v rest

/-- Go map delete: remove every binding of k. -/
def alErase {α β : Type} [DecidableEq α] (k : α) (l : List (α × β)) : List (α × β) :=
  l.filter (fun p => p.1 ≠ k)

/-- Per-metric accounting: total bytes and the per-chunk sizes, keyed by ts
(FlatAccntMet in the source). -/
structure FlatAccntMet where
  total : Nat
  chunks : List (Nat × Nat)
deriving DecidableEq, Repr

/-- The accountant state (FlatAccnt in the source), including the stats
counters it manipulates and the evict queue output accumulated so far. -/
structure FlatAccnt where
  metrics : List (String × FlatAccntMet)
  maxSize : Nat
  lru : LRU
  evictQ : List EvictTarget
  cacheSizeUsed : Nat
  cacheChunkAdd : Nat
  cacheChunkEvict : Nat
  cacheMetricAdd : Nat
  cacheMetricEvict : Nat
deriving DecidableEq, Repr

/-- NewFlatAccnt: fresh accountant with the given size limit. -/
def NewFlatAccnt (maxSize : Nat) : FlatAccnt :=
  { metrics := []
    maxSize := maxSize
    lru := NewLRU
    evictQ := []
    cacheSizeUsed := 0
    cacheChunkAdd := 0
    cacheChunkEvict := 0
    cacheMetricAdd := 0
    cacheMetricEvict := 0 }

/-- FlatAccnt.add from the source: create the metric entry on demand
(counting a metric add), then insert the chunk unless its ts is already
present, updating the metric total and cacheSizeUsed. -/
def FlatAccnt.add (a : FlatAccnt) (metric : String) (ts size : Nat) : FlatAccnt :=
  let createMet :=
    match alGet metric a.metrics with
    | some met => (a, met)
    | none =>
      let met : FlatAccntMet := { total := 0, chunks := [] }
      ({ a with metrics := alSet metric met a.metrics
                cacheMetricAdd := a.cacheMetricAdd + 1 }, met)
  let a1 := createMet.1
  let met := createMet.2
  match alGet ts met.chunks with
  | some _ => a1
  | none =>
    let met1 : FlatAccntMet :=
      { total := uadd met.total size, chunks := alSet ts size met.chunks }
    { a1 with metrics := alSet metric met1 a1.metrics
              cacheSizeUsed := uadd a1.cacheSizeUsed size }

/-- FlatAccnt.delMet from the source: if the metric is present, delete each
of its chunks from the LRU, subtract its total from cacheSizeUsed and drop
the metric entry. -/
def FlatAccnt.delMet (a : FlatAccnt) (metric : String) : FlatAccnt :=
  match alGet metric a.metrics with
  | none => a
  | some met =>
    let lru1 := met.chunks.foldl
      (fun (l : LRU) (c : Nat × Nat) => l.del (EvictTarget.mk metric c.1)) a.lru
    { a with lru := lru1
             cacheSizeUsed := usub a.cacheSizeUsed met.total
             metrics := alErase metric a.metrics }

/-- The body of the eviction loop in FlatAccnt.evict, for one victim ts:
read its size, subtract it from the metric total and from cacheSizeUsed,
count the chunk eviction, push the victim on the evict queue and delete it
from the chunk map. -/
def evictStep (metric : String) (p : FlatAccntMet × FlatAccnt) (ts : Nat) :
    FlatAccntMet × FlatAccnt :=
  let size := (alGet ts p.1.chunks).getD 0
  let met1 : FlatAccntMet :=
    { total := usub p.1.total size, chunks := alErase ts p.1.chunks }
  let a2 := { p.2 with
    cacheSizeUsed := usub p.2.cacheSizeUsed size
    cacheChunkEvict := p.2.cacheChunkEvict + 1
    evictQ := p.2.evictQ ++ [EvictTarget.mk metric ts] }
  (met1, a2)

/-- FlatAccnt.evict from the source: pop the LRU; if the popped target has
a live metric, collect every chunk ts at most target.Ts, sort ascending,
run evictStep on each, and finally drop the metric entry when its total
reached zero (counting a metric eviction). -/
def FlatAccnt.evict (a : FlatAccnt) : FlatAccnt :=
  match a.lru.pop with
  | (none, _) => a
  | (some target, lruRest) =>
    let a1 := { a with lru := lruRest }
    match alGet target.Metric a1.metrics with
    | none => a1
    | some met =>
      let targets := List.insertionSort (fun x y => x ≤ y)
        ((met.chunks.map Prod.fst).filter (fun ts => ts ≤ target.Ts))
      let r := targets.foldl (evictStep target.Metric) (met, a1)
      if r.1.total = 0 then
        { r.2 with cacheMetricEvict := r.2.cacheMetricEvict + 1
                   metrics := alErase target.Metric r.2.metrics }
      else
        { r.2 with metrics := alSet target.Metric r.1 r.2.metrics }

/-- The events carried on the event queue (FlatAccntEvent in the source,
with their payloads). -/
inductive FlatAccntEvent where
  | add (metric : String) (ts size : Nat)
  | hit (metric : String) (ts : Nat)
  | delMet (metric : String)
  | getTotal
  | reset
  | stop
deriving DecidableEq, Repr

/-- One dispatch step of the event loop switch statement (the evnt_stop
case is handled by runEvents, which stops processing). -/
def FlatAccnt.processEvent (a : FlatAccnt) : FlatAccntEvent → FlatAccnt
  | FlatAccntEvent.add metric ts size =>
    let a1 := a.add metric ts size
    let a2 := { a1 with cacheChunkAdd := a1.cacheChunkAdd + 1 }
    { a2 with lru := a2.lru.touch (EvictTarget.mk metric ts) }
  | FlatAccntEvent.hit metric ts =>
    { a with lru := a.lru.touch (EvictTarget.mk metric ts) }
  | FlatAccntEvent.delMet metric => a.delMet metric
  | FlatAccntEvent.getTotal => a
  | FlatAccntEvent.reset =>
    { a with metrics := [], lru := a.lru.reset, cacheSizeUsed := 0 }
  | FlatAccntEvent.stop => a

/-- The eviction drain loop (for cacheSizeUsed.Peek() > a.maxSize { a.evict() })
run with explicit fuel; none models the loop failing to terminate within
the given fuel. -/
def drainFuel : Nat → FlatAccnt → Option FlatAccnt
  | 0, a => if a.maxSize < a.cacheSizeUsed then none else some a
  | n + 1, a => if a.maxSize < a.cacheSizeUsed then drainFuel n a.evict else some a

/-- The eviction drain loop with the fuel that suffices for every reachable
state: one iteration per LRU entry plus the final test. -/
def FlatAccnt.drain (a : FlatAccnt) : Option FlatAccnt :=
  drainFuel (a.lru.items.length + 1) a

/-- Run the event loop over a list of events: each event is dispatched and
then the eviction drain loop runs; a stop event exits the loop at once. -/
def runEvents (a : FlatAccnt) : List FlatAccntEvent → Option FlatAccnt
  | [] => some a
  | FlatAccntEvent.stop :: _ => some a
  | e :: es =>
    match (a.processEvent e).drain with
    | none => none
    | some a1 => runEvents a1 es

/-- Sum of f over the entries of an association list. -/
def alSum {α β : Type} (f : α × β → Nat) (l : List (α × β)) : Nat :=
  (l.map f).sum

/-- Total bytes recorded in a chunk map (sum of the stored sizes). -/
def chunksSum (l : List (Nat × Nat)) : Nat := alSum Prod.snd l

/-- Total bytes recorded in the ledger (sum over all metrics of the sum of
their chunk sizes). -/
def usedSum (ms : List (String × FlatAccntMet)) : Nat :=
  alSum (fun p => chunksSum p.2.chunks) ms

/-- Sizes drawn by the eviction loop for a list of victim timestamps: each
victim ts contributes the size stored under it in the chunk map. -/
def sumOf (tss : List Nat) (chunks : List (Nat × Nat)) : Nat :=
  (tss.map (fun ts => (alGet ts chunks).getD 0)).sum

/-- The victim timestamps an evict call with the given popped target
computes for a metric entry: the chunk keys at most target ts, ascending. -/
def victims (met : FlatAccntMet) (t : Nat) : List Nat :=
  List.insertionSort (fun x y => x ≤ y)
    ((met.chunks.map Prod.fst).filter (fun ts => ts ≤ t))

/-- The bytes an evict call removes: sizes of the chunks with ts at most
the popped target ts. -/
def victimSize (met : FlatAccntMet) (t : Nat) : Nat :=
  chunksSum (met.chunks.filter (fun c => c.1 ≤ t))

/-- The wellformedness invariant of the accountant state, maintained by
the event loop between events (and through every evict call): metric keys
and chunk keys are unique, metric totals and cacheSizeUsed agree with the
stored sizes modulo 2 ^ 64, every ledger chunk appears in the Recency
Index, and the Recency Index has no duplicates. -/
structure Inv (a : FlatAccnt) : Prop where
  mkeys : (a.metrics.map Prod.fst).Nodup
  ckeys : ∀ p ∈ a.metrics, (p.2.chunks.map Prod.fst).Nodup
  totals : ∀ p ∈ a.metrics, p.2.total = chunksSum p.2.chunks % U64
  usedEq : a.cacheSizeUsed = usedSum a.metrics % U64
  ledgerSub : ∀ p ∈ a.metrics, ∀ c ∈ p.2.chunks,
    EvictTarget.mk p.1 c.1 ∈ a.lru.items
  lruNodup : a.lru.items.Nodup

/-- Concrete quiescent state used to witness the evict characterization:
two chunks of one metric, no eviction triggered. -/
def wit1 : FlatAccnt :=
  (runEvents (NewFlatAccnt 100)
    [FlatAccntEvent.add "a" 1 10, FlatAccntEvent.add "a" 2 10]).getD (NewFlatAccnt 0)

/-- Concrete quiescent state used to witness the ledger-to-recency
direction stated for claim C4. -/
def wit4 : FlatAccnt :=
  (runEvents (NewFlatAccnt 50) [FlatAccntEvent.add "b" 2 5]).getD (NewFlatAccnt 0)

/-- Concrete quiescent state with a single chunk, used to witness the
behaviour of evict on the Recency Index. -/
def wit5 : FlatAccnt :=
  (runEvents (NewFlatAccnt 100) [FlatAccntEvent.add "a" 1 10]).getD (NewFlatAccnt 0)

/-- Concrete state after one processed AddChunk event (dispatch plus
drain), used to witness the chunk-add counter behaviour. -/
def wit6 : FlatAccnt :=
  (((NewFlatAccnt 100).processEvent
    (FlatAccntEvent.add "a" 1 10)).drain).getD (NewFlatAccnt 0)

/-- Concrete quiescent state used to witness the reachable-state
ledger-to-recency inclusion invariant. -/
def wit10 : FlatAccnt :=
  (runEvents (NewFlatAccnt 100) [FlatAccntEvent.add "a" 1 10]).getD (NewFlatAccnt 0)

/-! ### Arithmetic lemmas about uint64 wrap-around -/

lemma U64_eq : U64 = 18446744073709551616 := by norm_num [U64]

lemma U64_pos : 0 < U64 := by norm_num [U64]

lemma uadd_lt (a b : Nat) : uadd a b < U64 := Nat.mod_lt _ U64_pos

lemma usub_lt (a b : Nat) : usub a b < U64 := Nat.mod_lt _ U64_pos

lemma uadd_mod_left (x s : Nat) : uadd (x % U64) s = (x + s) % U64 := by
  simp only [uadd, U64_eq]
  omega

lemma usub_mod_of_le {x s : Nat} (h : s ≤ x) :
    usub (x % U64) s = (x - s) % U64 := by
  simp only [usub, U64_eq]
  omega

lemma usub_mod_mod {x y : Nat} (h : y ≤ x) :
    usub (x % U64) (y % U64) = (x - y) % U64 := by
  simp only [usub, U64_eq]
  omega

lemma usub_usub (a b c : Nat) : usub (usub a b) c = usub a (b + c) := by
  simp only [usub, U64_eq]
  omega

/-! ### Association list lemmas -/

section AList

variable {α β : Type} [DecidableEq α]

lemma alGet_eq_none_iff {k : α} {l : List (α × β)} :
    alGet k l = none ↔ k ∉ l.map Prod.fst := by
  induction l with
  | nil => simp [alGet]
  | cons p rest ih =>
    by_cases h : p.1 = k
    · simp [alGet, h]
    · simp only [alGet, h, if_false, List.map_cons, List.mem_cons, ih]
      constructor
      · rintro hk (he | he)
        · exact h he.symm
        · exact hk he
      · intro hk he
        exact hk (Or.inr he)

lemma alGet_mem {k : α} {v : β} {l : List (α × β)} (h : alGet k l = some v) :
    (k, v) ∈ l := by
  induction l with
  | nil => simp [alGet] at h
  | cons p rest ih =>
    obtain ⟨p1, p2⟩ := p
    by_cases hp : p1 = k
    · subst hp
      simp only [alGet, if_pos rfl] at h
      cases h
      exact List.mem_cons_self _ _
    · simp only [alGet, hp, if_false] at h
      exact List.mem_cons_of_mem _ (ih h)

lemma mem_alGet {k : α} {v : β} {l : List (α × β)}
    (hnd : (l.map Prod.fst).Nodup) (h : (k, v) ∈ l) : alGet k l = some v := by
  induction l with
  | nil => simp at h
  | cons p rest ih =>
    simp only [List.map_cons, List.nodup_cons] at hnd
    rcases List.mem_cons.mp h with h1 | h1
    · subst h1
      simp [alGet]
    · have hk : ¬ (p.1 = k) := by
        intro he
        apply hnd.1
        rw [he]
        exact List.mem_map.mpr ⟨(k, v), h1, rfl⟩
      have h2 : alGet k (p :: rest) = alGet k rest := by
        simp [alGet, hk]
      rw [h2]
      exact ih hnd.2 h1

lemma alGet_alSet_self {k : α} {v : β} {l : List (α × β)} :
    alGet k (alSet k v l) = some v := by
  induction l with
  | nil => simp [alGet, alSet]
  | cons p rest ih =>
    by_cases h : p.1 = k
    · simp [alGet, alSet, h]
    · simp [alGet, alSet, h, ih]

lemma alGet_alSet_ne {k1 k : α} {v : β} {l : List (α × β)} (h : k1 ≠ k) :
    alGet k1 (alSet k v l) = alGet k1 l := by
  have h1 : ¬ (k = k1) := fun he => h he.symm
  induction l with
  | nil => simp [alGet, alSet, h1]
  | cons p rest ih =>
    by_cases hp : p.1 = k
    · have h2 : ¬ (p.1 = k1) := fun he => h (he.symm.trans hp)
      simp [alSet, hp, alGet, h1, h2]
    · rw [show alSet k v (p :: rest) = p :: alSet k v rest from by simp [alSet, hp]]
      by_cases hq : p.1 = k1 <;> simp [alGet, hq, ih]

lemma alSet_of_none {k : α} {v : β} {l : List (α × β)}
    (h : alGet k l = none) : alSet k v l = l ++ [(k, v)] := by
  induction l with
  | nil => simp [alSet]
  | cons p rest ih =>
    by_cases hp : p.1 = k
    · simp [alGet, hp] at h
    · simp only [alGet, if_neg hp] at h
      simp [alSet, hp, ih h]

lemma alSet_alSet {k : α} {v1 v2 : β} {l : List (α × β)} :
    alSet k v2 (alSet k v1 l) = alSet k v2 l := by
  induction l with
  | nil => simp [alSet]
  | cons p rest ih =>
    by_cases hp : p.1 = k
    · simp [alSet, hp]
    · simp [alSet, hp, ih]

lemma alGet_alErase_self {k : α} {l : List (α × β)} :
    alGet k (alErase k l) = none := by
  rw [alGet_eq_none_iff]
  intro hmem
  rcases List.mem_map.mp hmem with ⟨p, hp, he⟩
  rcases List.mem_filter.mp hp with ⟨_, hne⟩
  simp only [decide_eq_true_eq] at hne
  exact hne he

lemma alErase_cons_self {k : α} {p : α × β} {rest : List (α × β)}
    (hp : p.1 = k) : alErase k (p :: rest) = alErase k rest := by
  simp [alErase, List.filter_cons, hp]

lemma alErase_cons_ne {k : α} {p : α × β} {rest : List (α × β)}
    (hp : ¬ (p.1 = k)) : alErase k (p :: rest) = p :: alErase k rest := by
  simp [alErase, List.filter_cons, hp]

lemma alGet_alErase_ne {k1 k : α} {l : List (α × β)} (h : k1 ≠ k) :
    alGet k1 (alErase k l) = alGet k1 l := by
  induction l with
  | nil => simp [alErase]
  | cons p rest ih =>
    by_cases hp : p.1 = k
    · have h2 : ¬ (p.1 = k1) := fun he => h (he.symm.trans hp)
      rw [alErase_cons_self hp, ih]
      simp [alGet, h2]
    · rw [alErase_cons_ne hp]
      by_cases hq : p.1 = k1 <;> simp [alGet, hq, ih]

lemma mem_alErase_iff {k : α} {p : α × β} {l : List (α × β)} :
    p ∈ alErase k l ↔ p ∈ l ∧ p.1 ≠ k := by
  simp [alErase, List.mem_filter]

lemma keys_alErase_sublist {k : α} {l : List (α × β)} :
    ((alErase k l).map Prod.fst).Sublist (l.map Prod.fst) :=
  (List.filter_sublist l).map Prod.fst

lemma keys_nodup_alErase {k : α} {l : List (α × β)}
    (h : (l.map Prod.fst).Nodup) : ((alErase k l).map Prod.fst).Nodup :=
  h.sublist keys_alErase_sublist

lemma keys_alSet_mem {k x : α} {v : β} {l : List (α × β)}
    (h : x ∈ (alSet k v l).map Prod.fst) : x = k ∨ x ∈ l.map Prod.fst := by
  induction l with
  | nil => simp [alSet] at h; simp [h]
  | cons p rest ih =>
    by_cases hp : p.1 = k
    · simp only [alSet, if_pos hp, List.map_cons, List.mem_cons] at h
      rcases h with h | h
      · exact Or.inl h
      · exact Or.inr (by simp [h])
    · simp only [alSet, if_neg hp, List.map_cons, List.mem_cons] at h
      rcases h with h | h
      · exact Or.inr (by simp [h])
      · rcases ih h with h1 | h1
        · exact Or.inl h1
        · exact Or.inr (List.mem_cons_of_mem _ h1)

lemma keys_nodup_alSet {k : α} {v : β} {l : List (α × β)}
    (h : (l.map Prod.fst).Nodup) : ((alSet k v l).map Prod.fst).Nodup := by
  induction l with
  | nil => simp [alSet]
  | cons p rest ih =>
    simp only [List.map_cons, List.nodup_cons] at h
    by_cases hp : p.1 = k
    · simp only [alSet, if_pos hp, List.map_cons, List.nodup_cons]
      exact ⟨hp ▸ h.1, h.2⟩
    · simp only [alSet, if_neg hp, List.map_cons, List.nodup_cons]
      refine ⟨fun hmem => ?_, ih h.2⟩
      rcases keys_alSet_mem hmem with h1 | h1
      · exact hp h1
      · exact h.1 h1

lemma mem_alSet_weak {k : α} {v : β} {p : α × β} {l : List (α × β)}
    (h : p ∈ alSet k v l) : p = (k, v) ∨ p ∈ l := by
  induction l with
  | nil => simp [alSet] at h; simp [h]
  | cons q rest ih =>
    by_cases hq : q.1 = k
    · simp only [alSet, if_pos hq, List.mem_cons] at h
      rcases h with h | h
      · exact Or.inl h
      · exact Or.inr (List.mem_cons_of_mem _ h)
    · simp only [alSet, if_neg hq, List.mem_cons] at h
      rcases h with h | h
      · exact Or.inr (by simp [h])
      · rcases ih h with h1 | h1
        · exact Or.inl h1
        · exact Or.inr (List.mem_cons_of_mem _ h1)

lemma mem_alSet_iff {k : α} {v : β} {p : α × β} {l : List (α × β)}
    (hnd : (l.map Prod.fst).Nodup) :
    p ∈ alSet k v l ↔ p = (k, v) ∨ (p ∈ l ∧ p.1 ≠ k) := by
  induction l with
  | nil => simp [alSet]
  | cons q rest ih =>
    simp only [List.map_cons, List.nodup_cons] at hnd
    by_cases hq : q.1 = k
    · rw [show alSet k v (q :: rest) = (k, v) :: rest from by simp [alSet, hq]]
      simp only [List.mem_cons]
      constructor
      · rintro (h | h)
        · exact Or.inl h
        · refine Or.inr ⟨Or.inr h, fun he => hnd.1 ?_⟩
          have hm : p.1 ∈ List.map Prod.fst rest := List.mem_map.mpr ⟨p, h, rfl⟩
          rw [he, ← hq] at hm
          exact hm
      · rintro (h | ⟨h1 | h1, h2⟩)
        · exact Or.inl h
        · exact absurd (by rw [h1]; exact hq) h2
        · exact Or.inr h1
    · rw [show alSet k v (q :: rest) = q :: alSet k v rest from by simp [alSet, hq]]
      simp only [List.mem_cons, ih hnd.2]
      constructor
      · rintro (h | h | ⟨h1, h2⟩)
        · exact Or.inr ⟨Or.inl h, by rw [h]; exact hq⟩
        · exact Or.inl h
        · exact Or.inr ⟨Or.inr h1, h2⟩
      · rintro (h | ⟨h1 | h1, h2⟩)
        · exact Or.inr (Or.inl h)
        · exact Or.inl h1
        · exact Or.inr (Or.inr ⟨h1, h2⟩)

lemma alErase_of_none {k : α} {l : List (α × β)} (h : alGet k l = none) :
    alErase k l = l := by
  rw [alGet_eq_none_iff] at h
  unfold alErase
  apply List.filter_eq_self.mpr
  intro p hp
  simp only [decide_eq_true_eq]
  intro he
  exact h (List.mem_map.mpr ⟨p, hp, he⟩)

lemma alSum_append {f : α × β → Nat} {l1 l2 : List (α × β)} :
    alSum f (l1 ++ l2) = alSum f l1 + alSum f l2 := by
  simp [alSum]

lemma alSum_alSet_none {f : α × β → Nat} {k : α} {v : β} {l : List (α × β)}
    (h : alGet k l = none) :
    alSum f (alSet k v l) = alSum f l + f (k, v) := by
  rw [alSet_of_none h, alSum_append]
  simp [alSum]

lemma alSum_alSet_some {f : α × β → Nat} {k : α} {v v0 : β} {l : List (α × β)}
    (hnd : (l.map Prod.fst).Nodup) (h : alGet k l = some v0) :
    alSum f (alSet k v l) + f (k, v0) = alSum f l + f (k, v) := by
  induction l with
  | nil => simp [alGet] at h
  | cons p rest ih =>
    simp only [List.map_cons, List.nodup_cons] at hnd
    by_cases hp : p.1 = k
    · have hv : p.2 = v0 := by simpa [alGet, hp] using h
      have hps : p = (k, v0) := by
        obtain ⟨p1, p2⟩ := p
        simp only at hp hv
        rw [hp, hv]
      rw [show alSet k v (p :: rest) = (k, v) :: rest from by simp [alSet, hp]]
      simp only [alSum, List.map_cons, List.sum_cons, hps]
      omega
    · have hr : alGet k rest = some v0 := by simpa [alGet, hp] using h
      rw [show alSet k v (p :: rest) = p :: alSet k v rest from by simp [alSet, hp]]
      have ih1 := ih hnd.2 hr
      simp only [alSum, List.map_cons, List.sum_cons] at ih1 ⊢
      omega

lemma alSum_alErase {f : α × β → Nat} {k : α} {v0 : β} {l : List (α × β)}
    (hnd : (l.map Prod.fst).Nodup) (h : alGet k l = some v0) :
    alSum f (alErase k l) + f (k, v0) = alSum f l := by
  induction l with
  | nil => simp [alGet] at h
  | cons p rest ih =>
    simp only [List.map_cons, List.nodup_cons] at hnd
    by_cases hp : p.1 = k
    · have hv : p.2 = v0 := by simpa [alGet, hp] using h
      have hps : p = (k, v0) := by
        obtain ⟨p1, p2⟩ := p
        simp only at hp hv
        rw [hp, hv]
      have hnone : alGet k rest = none := by
        rw [alGet_eq_none_iff]
        exact fun hm => hnd.1 (hp ▸ hm)
      rw [alErase_cons_self hp, alErase_of_none hnone]
      simp only [alSum, List.map_cons, List.sum_cons, hps]
      omega
    · have hr : alGet k rest = some v0 := by simpa [alGet, hp] using h
      rw [alErase_cons_ne hp]
      have ih1 := ih hnd.2 hr
      simp only [alSum, List.map_cons, List.sum_cons] at ih1 ⊢
      omega

lemma le_alSum {f : α × β → Nat} {p : α × β} {l : List (α × β)} (h : p ∈ l) :
    f p ≤ alSum f l := by
  induction l with
  | nil => simp at h
  | cons q rest ih =>
    rcases List.mem_cons.mp h with h1 | h1
    · subst h1
      simp only [alSum, List.map_cons, List.sum_cons]
      omega
    · have := ih h1
      simp only [alSum, List.map_cons, List.sum_cons] at this ⊢
      omega

lemma alSum_ne_zero {f : α × β → Nat} {l : List (α × β)} (h : alSum f l ≠ 0) :
    ∃ p ∈ l, f p ≠ 0 := by
  induction l with
  | nil => simp [alSum] at h
  | cons q rest ih =>
    simp only [alSum, List.map_cons, List.sum_cons] at h
    by_cases hq : f q = 0
    · rcases ih (by simp only [alSum]; omega) with ⟨p, hp, hfp⟩
      exact ⟨p, List.mem_cons_of_mem _ hp, hfp⟩
    · exact ⟨q, List.mem_cons_self _ _, hq⟩

end AList

/-! ### Lemmas about sumOf and chunksSum -/

lemma sumOf_nil {chunks : List (Nat × Nat)} : sumOf [] chunks = 0 := rfl

lemma sumOf_cons {ts : Nat} {tss : List Nat} {chunks : List (Nat × Nat)} :
    sumOf (ts :: tss) chunks = (alGet ts chunks).getD 0 + sumOf tss chunks := by
  simp [sumOf]

lemma sumOf_congr {tss : List Nat} {c1 c2 : List (Nat × Nat)}
    (h : ∀ ts ∈ tss, alGet ts c1 = alGet ts c2) : sumOf tss c1 = sumOf tss c2 := by
  unfold sumOf
  congr 1
  exact List.map_congr_left (fun ts hts => by rw [h ts hts])

lemma sumOf_alErase_ne {ts : Nat} {tss : List Nat} {chunks : List (Nat × Nat)}
    (h : ts ∉ tss) : sumOf tss (alErase ts chunks) = sumOf tss chunks :=
  sumOf_congr fun t ht => alGet_alErase_ne (fun he => h (he ▸ ht))

lemma sumOf_perm {tss1 tss2 : List Nat} {chunks : List (Nat × Nat)}
    (h : tss1.Perm tss2) : sumOf tss1 chunks = sumOf tss2 chunks :=
  (h.map _).sum_eq

lemma sumOf_cons_chunk_ne {tss : List Nat} {c : Nat × Nat} {rest : List (Nat × Nat)}
    (h : ∀ ts ∈ tss, ts ≠ c.1) : sumOf tss (c :: rest) = sumOf tss rest :=
  sumOf_congr fun ts hts => by
    have hne : ¬ (c.1 = ts) := fun he => h ts hts he.symm
    simp [alGet, hne]

lemma sumOf_filter_keys {l : List (Nat × Nat)} {q : Nat → Bool}
    (hnd : (l.map Prod.fst).Nodup) :
    sumOf ((l.map Prod.fst).filter q) l = chunksSum (l.filter (fun c => q c.1)) := by
  induction l with
  | nil => simp [sumOf, chunksSum, alSum]
  | cons c rest ih =>
    simp only [List.map_cons, List.nodup_cons] at hnd
    have htail : ∀ ts ∈ (rest.map Prod.fst).filter q, ts ≠ c.1 := by
      intro ts hts he
      exact hnd.1 (he ▸ (List.mem_filter.mp hts).1)
    by_cases hq : q c.1
    · rw [show (List.map Prod.fst (c :: rest)).filter q =
          c.1 :: (rest.map Prod.fst).filter q from by simp [List.filter_cons, hq]]
      rw [show (c :: rest).filter (fun c2 => q c2.1) =
          c :: rest.filter (fun c2 => q c2.1) from by simp [List.filter_cons, hq]]
      rw [sumOf_cons, sumOf_cons_chunk_ne htail, ih hnd.2]
      simp [alGet, chunksSum, alSum]
    · rw [show (List.map Prod.fst (c :: rest)).filter q =
          (rest.map Prod.fst).filter q from by simp [List.filter_cons, hq]]
      rw [show (c :: rest).filter (fun c2 => q c2.1) =
          rest.filter (fun c2 => q c2.1) from by simp [List.filter_cons, hq]]
      rw [sumOf_cons_chunk_ne htail, ih hnd.2]

lemma chunksSum_filter_split (l : List (Nat × Nat)) (q : Nat × Nat → Bool) :
    chunksSum l = chunksSum (l.filter q) + chunksSum (l.filter (fun c => !(q c))) := by
  induction l with
  | nil => simp [chunksSum, alSum]
  | cons c rest ih =>
    cases hq : q c <;> simp [chunksSum, alSum, List.filter_cons, hq] at ih ⊢ <;> omega

/-! ### Lemmas about the Recency Index model -/

lemma mem_touch {l : LRU} {e x : EvictTarget} (h : x ∈ l.items) :
    x ∈ (l.touch e).items := by
  by_cases hx : x = e
  · subst hx
    simp [LRU.touch]
  · exact List.mem_append_left _ (List.mem_filter.mpr ⟨h, by simp [hx]⟩)

lemma self_mem_touch {l : LRU} {e : EvictTarget} : e ∈ (l.touch e).items := by
  simp [LRU.touch]

lemma touch_nodup {l : LRU} {e : EvictTarget} (h : l.items.Nodup) :
    (l.touch e).items.Nodup := by
  unfold LRU.touch
  simp only
  apply List.Nodup.append (h.filter _) (List.nodup_singleton e)
  intro x hx
  rcases List.mem_filter.mp hx with ⟨_, hne⟩
  simp only [decide_eq_true_eq] at hne
  simp [hne]

lemma mem_del_iff {l : LRU} {e x : EvictTarget} :
    x ∈ (l.del e).items ↔ x ∈ l.items ∧ x ≠ e := by
  simp [LRU.del, List.mem_filter]

lemma del_nodup {l : LRU} {e : EvictTarget} (h : l.items.Nodup) :
    (l.del e).items.Nodup := h.filter _

lemma pop_some_items {l : LRU} {x : EvictTarget} {rest : LRU}
    (h : l.pop = (some x, rest)) : l.items = x :: rest.items := by
  cases hl : l.items with
  | nil =>
    unfold LRU.pop at h
    rw [hl] at h
    simp at h
  | cons y ys =>
    unfold LRU.pop at h
    rw [hl] at h
    simp only [Prod.mk.injEq, Option.some.injEq] at h
    rw [← h.1, ← h.2]

lemma pop_none_items {l : LRU} {rest : LRU} (h : l.pop = (none, rest)) :
    l.items = [] := by
  cases hl : l.items with
  | nil => rfl
  | cons y ys =>
    unfold LRU.pop at h
    rw [hl] at h
    simp at h

lemma foldl_del_mem {metric : String} {chunks : List (Nat × Nat)} {l : LRU}
    {x : EvictTarget} (h : x ∈ l.items) (hx : x.Metric ≠ metric) :
    x ∈ (chunks.foldl
      (fun (l : LRU) (c : Nat × Nat) => l.del (EvictTarget.mk metric c.1)) l).items := by
  induction chunks generalizing l with
  | nil => exact h
  | cons c rest ih =>
    exact ih (mem_del_iff.mpr ⟨h, fun he => hx (by rw [he])⟩)

lemma foldl_del_nodup {metric : String} {chunks : List (Nat × Nat)} {l : LRU}
    (h : l.items.Nodup) :
    ((chunks.foldl
      (fun (l : LRU) (c : Nat × Nat) => l.del (EvictTarget.mk metric c.1)) l).items).Nodup := by
  induction chunks generalizing l with
  | nil => exact h
  | cons c rest ih => exact ih (del_nodup h)

/-! ### Characterizations of the ledger operations -/

lemma alGet_some_of_mem_keys {α β : Type} [DecidableEq α] {k : α}
    {l : List (α × β)} (h : k ∈ l.map Prod.fst) : ∃ v, alGet k l = some v := by
  cases hg : alGet k l with
  | none => exact absurd h (alGet_eq_none_iff.mp hg)
  | some v => exact ⟨v, rfl⟩

lemma add_eq_of_present {a : FlatAccnt} {metric : String} {ts size : Nat}
    {met : FlatAccntMet} {s0 : Nat}
    (hm : alGet metric a.metrics = some met)
    (ht : alGet ts met.chunks = some s0) :
    a.add metric ts size = a := by
  simp [FlatAccnt.add, hm, ht]

lemma add_eq_of_new_chunk {a : FlatAccnt} {metric : String} {ts size : Nat}
    {met : FlatAccntMet}
    (hm : alGet metric a.metrics = some met)
    (ht : alGet ts met.chunks = none) :
    a.add metric ts size =
      { a with
        metrics := alSet metric
          (FlatAccntMet.mk (uadd met.total size) (alSet ts size met.chunks)) a.metrics
        cacheSizeUsed := uadd a.cacheSizeUsed size } := by
  simp [FlatAccnt.add, hm, ht]

lemma add_eq_of_new_metric {a : FlatAccnt} {metric : String} {ts size : Nat}
    (hm : alGet metric a.metrics = none) :
    a.add metric ts size =
      { a with
        metrics := alSet metric
          (FlatAccntMet.mk (uadd 0 size) [(ts, size)]) a.metrics
        cacheMetricAdd := a.cacheMetricAdd + 1
        cacheSizeUsed := uadd a.cacheSizeUsed size } := by
  have h0 : alGet ts ([] : List (Nat × Nat)) = none := rfl
  simp only [FlatAccnt.add, hm, h0]
  simp [alSet_alSet, alSet]

lemma delMet_eq_of_none {a : FlatAccnt} {metric : String}
    (h : alGet metric a.metrics = none) : a.delMet metric = a := by
  simp [FlatAccnt.delMet, h]

lemma delMet_eq_of_some {a : FlatAccnt} {metric : String} {met : FlatAccntMet}
    (h : alGet metric a.metrics = some met) :
    a.delMet metric =
      { a with
        lru := met.chunks.foldl
          (fun (l : LRU) (c : Nat × Nat) => l.del (EvictTarget.mk metric c.1)) a.lru
        cacheSizeUsed := usub a.cacheSizeUsed met.total
        metrics := alErase metric a.metrics } := by
  simp [FlatAccnt.delMet, h]

/-! ### Characterization of evict -/

lemma evict_of_pop_none {a : FlatAccnt} {l : LRU}
    (h : a.lru.pop = (none, l)) : a.evict = a := by
  simp [FlatAccnt.evict, h]

lemma evict_of_no_metric {a : FlatAccnt} {target : EvictTarget} {lruRest : LRU}
    (hpop : a.lru.pop = (some target, lruRest))
    (hmet : alGet target.Metric a.metrics = none) :
    a.evict = { a with lru := lruRest } := by
  simp [FlatAccnt.evict, hpop, hmet]

lemma foldl_evictStep_pres {m : String} {tss : List Nat} {met : FlatAccntMet}
    {b : FlatAccnt} :
    (tss.foldl (evictStep m) (met, b)).2.lru = b.lru ∧
    (tss.foldl (evictStep m) (met, b)).2.maxSize = b.maxSize ∧
    (tss.foldl (evictStep m) (met, b)).2.cacheChunkAdd = b.cacheChunkAdd ∧
    (tss.foldl (evictStep m) (met, b)).2.cacheMetricAdd = b.cacheMetricAdd ∧
    (tss.foldl (evictStep m) (met, b)).2.metrics = b.metrics ∧
    (tss.foldl (evictStep m) (met, b)).2.cacheMetricEvict = b.cacheMetricEvict := by
  induction tss generalizing met b with
  | nil => exact ⟨rfl, rfl, rfl, rfl, rfl, rfl⟩
  | cons ts rest ih =>
    simp only [List.foldl_cons]
    exact ih

lemma foldl_evictStep_eq {m : String} {tss : List Nat} {met : FlatAccntMet}
    {b : FlatAccnt}
    (htot : met.total < U64)
    (husd : b.cacheSizeUsed < U64)
    (hnd : (met.chunks.map Prod.fst).Nodup)
    (hndt : tss.Nodup)
    (hmem : ∀ ts ∈ tss, ts ∈ met.chunks.map Prod.fst) :
    tss.foldl (evictStep m) (met, b) =
      (FlatAccntMet.mk (usub met.total (sumOf tss met.chunks))
        (met.chunks.filter (fun c => decide (c.1 ∉ tss))),
       { b with
         cacheSizeUsed := usub b.cacheSizeUsed (sumOf tss met.chunks)
         cacheChunkEvict := b.cacheChunkEvict + tss.length
         evictQ := b.evictQ ++ tss.map (fun ts => EvictTarget.mk m ts) }) := by
  induction tss generalizing met b with
  | nil =>
    simp only [List.foldl_nil, sumOf_nil, List.length_nil, List.map_nil,
      List.append_nil, Nat.add_zero]
    have h1 : usub met.total 0 = met.total := by
      simp only [usub, U64_eq] at *
      omega
    have h2 : usub b.cacheSizeUsed 0 = b.cacheSizeUsed := by
      simp only [usub, U64_eq] at *
      omega
    have h3 : met.chunks.filter (fun c => decide (c.1 ∉ ([] : List Nat))) = met.chunks := by
      apply List.filter_eq_self.mpr
      intro p _
      simp
    rw [h1, h2, h3]
  | cons ts rest ih =>
    simp only [List.foldl_cons]
    have hts : ts ∈ met.chunks.map Prod.fst := hmem ts (List.mem_cons_self _ _)
    have hndc := List.nodup_cons.mp hndt
    have hnd1 : ((alErase ts met.chunks).map Prod.fst).Nodup := keys_nodup_alErase hnd
    have hmem1 : ∀ t2 ∈ rest, t2 ∈ (alErase ts met.chunks).map Prod.fst := by
      intro t2 ht2
      have h1 : t2 ∈ met.chunks.map Prod.fst := hmem t2 (List.mem_cons_of_mem _ ht2)
      have hne : t2 ≠ ts := fun he => hndc.1 (he ▸ ht2)
      rcases alGet_some_of_mem_keys h1 with ⟨v, hv⟩
      have h2 : alGet t2 (alErase ts met.chunks) = some v := by
        rw [alGet_alErase_ne hne, hv]
      by_contra hcon
      rw [alGet_eq_none_iff.mpr hcon] at h2
      cases h2
    have hstep : evictStep m (met, b) ts =
        (FlatAccntMet.mk (usub met.total ((alGet ts met.chunks).getD 0))
          (alErase ts met.chunks),
         { b with
           cacheSizeUsed := usub b.cacheSizeUsed ((alGet ts met.chunks).getD 0)
           cacheChunkEvict := b.cacheChunkEvict + 1
           evictQ := b.evictQ ++ [EvictTarget.mk m ts] }) := rfl
    rw [hstep, ih (usub_lt _ _) (usub_lt _ _) hnd1 hndc.2 hmem1]
    have hsum : sumOf rest (alErase ts met.chunks) = sumOf rest met.chunks :=
      sumOf_alErase_ne hndc.1
    have hfil : (alErase ts met.chunks).filter (fun c => decide (c.1 ∉ rest)) =
        met.chunks.filter (fun c => decide (c.1 ∉ ts :: rest)) := by
      unfold alErase
      rw [List.filter_filter]
      apply List.filter_congr
      intro c _
      simp
      exact Bool.and_comm _ _
    rw [Prod.mk.injEq]
    constructor
    · rw [hsum, usub_usub, sumOf_cons, hfil]
    · rw [FlatAccnt.mk.injEq]
      refine ⟨rfl, rfl, rfl, ?_, ?_, rfl, ?_, rfl, rfl⟩
      · rw [List.map_cons, ← List.append_cons]
      · rw [hsum, usub_usub, sumOf_cons]
      · dsimp only
        rw [List.length_cons]
        omega

lemma victims_nodup {met : FlatAccntMet} {t : Nat}
    (hnd : (met.chunks.map Prod.fst).Nodup) : (victims met t).Nodup := by
  unfold victims
  exact ((List.perm_insertionSort _ _).nodup_iff).mpr (hnd.filter _)

lemma victims_perm (met : FlatAccntMet) (t : Nat) :
    (victims met t).Perm ((met.chunks.map Prod.fst).filter (fun ts => ts ≤ t)) :=
  List.perm_insertionSort _ _

lemma victims_sorted (met : FlatAccntMet) (t : Nat) :
    List.Sorted (fun x y => x ≤ y) (victims met t) :=
  List.sorted_insertionSort _ _

lemma mem_victims {met : FlatAccntMet} {t ts : Nat} (h : ts ∈ victims met t) :
    ts ∈ met.chunks.map Prod.fst ∧ ts ≤ t := by
  have h1 := (victims_perm met t).mem_iff.mp h
  rcases List.mem_filter.mp h1 with ⟨h2, h3⟩
  exact ⟨h2, of_decide_eq_true h3⟩

lemma sumOf_victims {met : FlatAccntMet} {t : Nat}
    (hnd : (met.chunks.map Prod.fst).Nodup) :
    sumOf (victims met t) met.chunks = victimSize met t := by
  rw [sumOf_perm (victims_perm met t), sumOf_filter_keys hnd]
  rfl

lemma filter_not_victims {met : FlatAccntMet} {t : Nat} :
    met.chunks.filter (fun c => decide (c.1 ∉ victims met t)) =
      met.chunks.filter (fun c => !decide (c.1 ≤ t)) := by
  apply List.filter_congr
  intro c hc
  have hiff : c.1 ∈ victims met t ↔ c.1 ≤ t := by
    rw [(victims_perm met t).mem_iff, List.mem_filter]
    constructor
    · rintro ⟨_, h2⟩
      exact of_decide_eq_true h2
    · intro h2
      exact ⟨List.mem_map.mpr ⟨c, hc, rfl⟩, decide_eq_true h2⟩
  simp only [hiff]
  by_cases hle : c.1 ≤ t
  · have h3 : ¬ t < c.1 := by omega
    simp [hle, h3]
  · have h3 : t < c.1 := by omega
    simp [hle, h3]

lemma evict_eq {a : FlatAccnt} {target : EvictTarget} {lruRest : LRU}
    {met : FlatAccntMet}
    (hpop : a.lru.pop = (some target, lruRest))
    (hmet : alGet target.Metric a.metrics = some met)
    (htot : met.total < U64)
    (husd : a.cacheSizeUsed < U64)
    (hnd : (met.chunks.map Prod.fst).Nodup) :
    a.evict = { a with
      lru := lruRest
      metrics :=
        if usub met.total (victimSize met target.Ts) = 0
        then alErase target.Metric a.metrics
        else alSet target.Metric
          (FlatAccntMet.mk (usub met.total (victimSize met target.Ts))
            (met.chunks.filter (fun c => !decide (c.1 ≤ target.Ts)))) a.metrics
      evictQ := a.evictQ ++
        (victims met target.Ts).map (fun ts => EvictTarget.mk target.Metric ts)
      cacheSizeUsed := usub a.cacheSizeUsed (victimSize met target.Ts)
      cacheChunkEvict := a.cacheChunkEvict + (victims met target.Ts).length
      cacheMetricEvict :=
        if usub met.total (victimSize met target.Ts) = 0
        then a.cacheMetricEvict + 1 else a.cacheMetricEvict } := by
  have hfold := @foldl_evictStep_eq target.Metric (victims met target.Ts) met
      { a with lru := lruRest } htot husd hnd (victims_nodup hnd)
      (fun ts hts => (mem_victims hts).1)
  simp only [FlatAccnt.evict, hpop, hmet]
  rw [show List.insertionSort (fun x y => x ≤ y)
        ((met.chunks.map Prod.fst).filter (fun ts => ts ≤ target.Ts)) =
      victims met target.Ts from rfl]
  rw [hfold]
  dsimp only
  rw [sumOf_victims hnd, filter_not_victims]
  by_cases h0 : usub met.total (victimSize met target.Ts) = 0
  · simp only [h0, if_true, if_pos]
  · simp only [h0, if_false, if_neg]

/-! ### Preservation of the invariant -/

lemma inv_new (mx : Nat) : Inv (NewFlatAccnt mx) := by
  refine ⟨?_, ?_, ?_, ?_, ?_, ?_⟩ <;> simp [NewFlatAccnt, NewLRU, usedSum, alSum]

lemma chunksSum_split_victims (met : FlatAccntMet) (t : Nat) :
    chunksSum met.chunks = victimSize met t +
      chunksSum (met.chunks.filter (fun c => !decide (c.1 ≤ t))) := by
  unfold victimSize
  exact chunksSum_filter_split met.chunks (fun c => decide (c.1 ≤ t))

lemma survivors_keys_nodup {met : FlatAccntMet} {t : Nat}
    (hnd : (met.chunks.map Prod.fst).Nodup) :
    ((met.chunks.filter (fun c => !decide (c.1 ≤ t))).map Prod.fst).Nodup :=
  hnd.sublist ((List.filter_sublist met.chunks).map Prod.fst)

lemma inv_evict {a : FlatAccnt} (h : Inv a) : Inv a.evict := by
  rcases hpop : a.lru.pop with ⟨opt, lruRest⟩
  cases opt with
  | none =>
    rw [evict_of_pop_none hpop]
    exact h
  | some target =>
    have hitems : a.lru.items = target :: lruRest.items := pop_some_items hpop
    have hrestnd : lruRest.items.Nodup := by
      have h1 := h.lruNodup
      rw [hitems] at h1
      exact (List.nodup_cons.mp h1).2
    cases hmet : alGet target.Metric a.metrics with
    | none =>
      rw [evict_of_no_metric hpop hmet]
      refine ⟨h.mkeys, h.ckeys, h.totals, h.usedEq, ?_, hrestnd⟩
      intro p hp c hc
      have hmem := h.ledgerSub p hp c hc
      rw [hitems] at hmem
      rcases List.mem_cons.mp hmem with h1 | h1
      · exfalso
        have h2 : alGet p.1 a.metrics = some p.2 := mem_alGet h.mkeys hp
        rw [show p.1 = target.Metric from congrArg EvictTarget.Metric h1, hmet] at h2
        cases h2
      · exact h1
    | some met =>
      have hpmem : (target.Metric, met) ∈ a.metrics := alGet_mem hmet
      have hnd : (met.chunks.map Prod.fst).Nodup := h.ckeys _ hpmem
      have htot0 : met.total = chunksSum met.chunks % U64 := h.totals _ hpmem
      have htot : met.total < U64 := by
        rw [htot0]
        exact Nat.mod_lt _ U64_pos
      have husd : a.cacheSizeUsed < U64 := by
        rw [h.usedEq]
        exact Nat.mod_lt _ U64_pos
      have hsplit := chunksSum_split_victims met target.Ts
      have hSle : victimSize met target.Ts ≤ chunksSum met.chunks := by omega
      have hmle : chunksSum met.chunks ≤ usedSum a.metrics := by
        unfold usedSum
        exact @le_alSum String FlatAccntMet _ (fun p => chunksSum p.2.chunks) _ _ hpmem
      have htot9 : usub met.total (victimSize met target.Ts) =
          (chunksSum met.chunks - victimSize met target.Ts) % U64 := by
        rw [htot0]
        exact usub_mod_of_le hSle
      have hused9 : usub a.cacheSizeUsed (victimSize met target.Ts) =
          (usedSum a.metrics - victimSize met target.Ts) % U64 := by
        rw [h.usedEq]
        exact usub_mod_of_le (le_trans hSle hmle)
      have hsurv : chunksSum (met.chunks.filter (fun c => !decide (c.1 ≤ target.Ts))) =
          chunksSum met.chunks - victimSize met target.Ts := by omega
      have hsub9 : ∀ p, p ∈ a.metrics → p.1 ≠ target.Metric →
          ∀ c ∈ p.2.chunks, EvictTarget.mk p.1 c.1 ∈ lruRest.items := by
        intro p hp hne c hc
        have hmem := h.ledgerSub p hp c hc
        rw [hitems] at hmem
        rcases List.mem_cons.mp hmem with h1 | h1
        · exact absurd (congrArg EvictTarget.Metric h1) hne
        · exact h1
      rw [evict_eq hpop hmet htot husd hnd]
      by_cases h0 : usub met.total (victimSize met target.Ts) = 0
      · simp only [h0, if_true, ite_true]
        refine ⟨?_, ?_, ?_, ?_, ?_, hrestnd⟩
        · exact keys_nodup_alErase h.mkeys
        · intro p hp
          exact h.ckeys p (mem_alErase_iff.mp hp).1
        · intro p hp
          exact h.totals p (mem_alErase_iff.mp hp).1
        · have herase : usedSum (alErase target.Metric a.metrics) +
              chunksSum met.chunks = usedSum a.metrics := by
            unfold usedSum
            exact alSum_alErase h.mkeys hmet
          have hz : (chunksSum met.chunks - victimSize met target.Ts) % U64 = 0 := by
            rw [← htot9]
            exact h0
          rw [hused9]
          simp only [U64_eq] at hz ⊢
          omega
        · intro p hp c hc
          rcases mem_alErase_iff.mp hp with ⟨hp1, hp2⟩
          exact hsub9 p hp1 hp2 c hc
      · simp only [h0, if_false, ite_false]
        refine ⟨?_, ?_, ?_, ?_, ?_, hrestnd⟩
        · exact keys_nodup_alSet h.mkeys
        · intro p hp
          rcases (mem_alSet_iff h.mkeys).mp hp with h1 | ⟨h1, _⟩
          · rw [h1]
            exact survivors_keys_nodup hnd
          · exact h.ckeys p h1
        · intro p hp
          rcases (mem_alSet_iff h.mkeys).mp hp with h1 | ⟨h1, _⟩
          · rw [h1]
            simp only
            rw [htot9, hsurv]
          · exact h.totals p h1
        · have hset : usedSum (alSet target.Metric
              (FlatAccntMet.mk (usub met.total (victimSize met target.Ts))
                (met.chunks.filter (fun c => !decide (c.1 ≤ target.Ts)))) a.metrics) +
              chunksSum met.chunks =
              usedSum a.metrics +
              chunksSum (met.chunks.filter (fun c => !decide (c.1 ≤ target.Ts))) := by
            unfold usedSum
            exact alSum_alSet_some h.mkeys hmet
          rw [hused9]
          have hfin : usedSum (alSet target.Metric
              (FlatAccntMet.mk (usub met.total (victimSize met target.Ts))
                (met.chunks.filter (fun c => !decide (c.1 ≤ target.Ts)))) a.metrics) =
              usedSum a.metrics - victimSize met target.Ts := by omega
          rw [hfin]
        · intro p hp c hc
          rcases (mem_alSet_iff h.mkeys).mp hp with h1 | ⟨h1, hne⟩
          · have hc2 : c ∈ met.chunks ∧ ¬ (c.1 ≤ target.Ts) := by
              rw [h1] at hc
              simp only at hc
              rcases List.mem_filter.mp hc with ⟨hc1, hc2⟩
              refine ⟨hc1, ?_⟩
              simpa using hc2
            have hmem := h.ledgerSub _ hpmem c hc2.1
            rw [hitems] at hmem
            rcases List.mem_cons.mp hmem with h2 | h2
            · exfalso
              have : c.1 = target.Ts := congrArg EvictTarget.Ts h2
              omega
            · rw [h1]
              exact h2
          · exact hsub9 p h1 hne c hc

lemma inv_processEvent {a : FlatAccnt} (h : Inv a) (e : FlatAccntEvent) :
    Inv (a.processEvent e) := by
  cases e with
  | add metric ts size =>
    simp only [FlatAccnt.processEvent]
    cases hm : alGet metric a.metrics with
    | some met =>
      cases ht : alGet ts met.chunks with
      | some s0 =>
        rw [add_eq_of_present hm ht]
        refine ⟨h.mkeys, h.ckeys, h.totals, h.usedEq, ?_, touch_nodup h.lruNodup⟩
        intro p hp c hc
        exact mem_touch (h.ledgerSub p hp c hc)
      | none =>
        rw [add_eq_of_new_chunk hm ht]
        have hpmem := alGet_mem hm
        have hcknd : (met.chunks.map Prod.fst).Nodup := h.ckeys _ hpmem
        have htot0 := h.totals _ hpmem
        have hchsum : chunksSum (alSet ts size met.chunks) =
            chunksSum met.chunks + size := by
          unfold chunksSum
          rw [alSum_alSet_none ht]
        refine ⟨keys_nodup_alSet h.mkeys, ?_, ?_, ?_, ?_, touch_nodup h.lruNodup⟩
        · intro p hp
          rcases (mem_alSet_iff h.mkeys).mp hp with h1 | ⟨h1, _⟩
          · rw [h1]
            simp only
            rw [alSet_of_none ht, List.map_append, List.nodup_append]
            refine ⟨hcknd, List.nodup_singleton _, ?_⟩
            intro x hx
            simp only [List.map_cons, List.map_nil, List.mem_singleton]
            intro he
            exact (alGet_eq_none_iff.mp ht) (he ▸ hx)
          · exact h.ckeys p h1
        · intro p hp
          rcases (mem_alSet_iff h.mkeys).mp hp with h1 | ⟨h1, _⟩
          · rw [h1]
            simp only
            rw [htot0, uadd_mod_left, hchsum]
          · exact h.totals p h1
        · have hset : usedSum (alSet metric
              (FlatAccntMet.mk (uadd met.total size) (alSet ts size met.chunks))
              a.metrics) + chunksSum met.chunks =
              usedSum a.metrics + chunksSum (alSet ts size met.chunks) := by
            unfold usedSum
            exact alSum_alSet_some h.mkeys hm
          rw [h.usedEq, uadd_mod_left]
          have hfin : usedSum (alSet metric
              (FlatAccntMet.mk (uadd met.total size) (alSet ts size met.chunks))
              a.metrics) = usedSum a.metrics + size := by omega
          rw [hfin]
        · intro p hp c hc
          rcases (mem_alSet_iff h.mkeys).mp hp with h1 | ⟨h1, _⟩
          · rw [h1] at hc ⊢
            simp only at hc ⊢
            rcases mem_alSet_weak hc with h2 | h2
            · rw [h2]
              exact self_mem_touch
            · exact mem_touch (h.ledgerSub _ hpmem c h2)
          · exact mem_touch (h.ledgerSub p h1 c hc)
    | none =>
      rw [add_eq_of_new_metric hm]
      refine ⟨keys_nodup_alSet h.mkeys, ?_, ?_, ?_, ?_, touch_nodup h.lruNodup⟩
      · intro p hp
        rcases (mem_alSet_iff h.mkeys).mp hp with h1 | ⟨h1, _⟩
        · rw [h1]
          simp
        · exact h.ckeys p h1
      · intro p hp
        rcases (mem_alSet_iff h.mkeys).mp hp with h1 | ⟨h1, _⟩
        · rw [h1]
          simp [chunksSum, alSum, uadd]
        · exact h.totals p h1
      · have hset : usedSum (alSet metric
            (FlatAccntMet.mk (uadd 0 size) [(ts, size)]) a.metrics) =
            usedSum a.metrics + chunksSum [(ts, size)] := by
          unfold usedSum
          exact alSum_alSet_none hm
        rw [h.usedEq, uadd_mod_left, hset]
        simp [chunksSum, alSum]
      · intro p hp c hc
        rcases (mem_alSet_iff h.mkeys).mp hp with h1 | ⟨h1, _⟩
        · rw [h1] at hc ⊢
          simp only at hc ⊢
          rcases List.mem_singleton.mp hc with h2
          rw [h2]
          exact self_mem_touch
        · exact mem_touch (h.ledgerSub p h1 c hc)
  | hit metric ts =>
    refine ⟨h.mkeys, h.ckeys, h.totals, h.usedEq, ?_, touch_nodup h.lruNodup⟩
    intro p hp c hc
    exact mem_touch (h.ledgerSub p hp c hc)
  | delMet metric =>
    simp only [FlatAccnt.processEvent]
    cases hm : alGet metric a.metrics with
    | none =>
      rw [delMet_eq_of_none hm]
      exact h
    | some met =>
      rw [delMet_eq_of_some hm]
      have hpmem := alGet_mem hm
      have htot0 := h.totals _ hpmem
      have hmle : chunksSum met.chunks ≤ usedSum a.metrics := by
        unfold usedSum
        exact @le_alSum String FlatAccntMet _ (fun p => chunksSum p.2.chunks) _ _ hpmem
      have herase : usedSum (alErase metric a.metrics) + chunksSum met.chunks =
          usedSum a.metrics := by
        unfold usedSum
        exact alSum_alErase h.mkeys hm
      refine ⟨keys_nodup_alErase h.mkeys, ?_, ?_, ?_, ?_, foldl_del_nodup h.lruNodup⟩
      · intro p hp
        exact h.ckeys p (mem_alErase_iff.mp hp).1
      · intro p hp
        exact h.totals p (mem_alErase_iff.mp hp).1
      · rw [h.usedEq, htot0, usub_mod_mod hmle]
        have hfin : usedSum a.metrics - chunksSum met.chunks =
            usedSum (alErase metric a.metrics) := by omega
        rw [hfin]
      · intro p hp c hc
        rcases mem_alErase_iff.mp hp with ⟨hp1, hne⟩
        exact foldl_del_mem (h.ledgerSub p hp1 c hc) hne
  | getTotal => exact h
  | reset =>
    simp only [FlatAccnt.processEvent]
    refine ⟨?_, ?_, ?_, ?_, ?_, ?_⟩ <;> simp [LRU.reset, usedSum, alSum]
  | stop => exact h

/-! ### Termination of the eviction drain loop and the run master lemma -/

lemma inv_used_ne_zero_lru {a : FlatAccnt} (h : Inv a) (hu : a.cacheSizeUsed ≠ 0) :
    a.lru.items ≠ [] := by
  have husd := h.usedEq
  have hsum : usedSum a.metrics ≠ 0 := by
    intro hz
    rw [hz] at husd
    exact hu (by rw [husd]; exact Nat.zero_mod _)
  have hsum2 : alSum (fun p => chunksSum p.2.chunks) a.metrics ≠ 0 := hsum
  rcases alSum_ne_zero hsum2 with ⟨p, hp, hfp⟩
  have hfp2 : alSum Prod.snd p.2.chunks ≠ 0 := hfp
  rcases alSum_ne_zero hfp2 with ⟨c, hc, _⟩
  intro hnil
  have hmem := h.ledgerSub p hp c hc
  rw [hnil] at hmem
  exact absurd hmem (List.not_mem_nil _)

lemma evict_lru_of_pop_some {a : FlatAccnt} {target : EvictTarget} {lruRest : LRU}
    (hpop : a.lru.pop = (some target, lruRest)) :
    (a.evict).lru = lruRest := by
  cases hmet : alGet target.Metric a.metrics with
  | none => rw [evict_of_no_metric hpop hmet]
  | some met =>
    simp only [FlatAccnt.evict, hpop, hmet]
    obtain ⟨hl, -, -, -, -, -⟩ := @foldl_evictStep_pres target.Metric
      (List.insertionSort (fun x y => x ≤ y)
        ((met.chunks.map Prod.fst).filter (fun ts => ts ≤ target.Ts)))
      met { a with lru := lruRest }
    split <;> simp [hl]

lemma evict_shrink {a : FlatAccnt} {x : EvictTarget} {xs : List EvictTarget}
    (hitems : a.lru.items = x :: xs) :
    (a.evict).lru.items.length + 1 = a.lru.items.length := by
  have hpop : a.lru.pop = (some x, LRU.mk xs) := by
    simp [LRU.pop, hitems]
  rw [evict_lru_of_pop_some hpop, hitems]
  simp

lemma evict_pres_fields (a : FlatAccnt) :
    (a.evict).maxSize = a.maxSize ∧ (a.evict).cacheChunkAdd = a.cacheChunkAdd := by
  rcases hpop : a.lru.pop with ⟨opt, lruRest⟩
  cases opt with
  | none =>
    rw [evict_of_pop_none hpop]
    exact ⟨rfl, rfl⟩
  | some target =>
    cases hmet : alGet target.Metric a.metrics with
    | none =>
      rw [evict_of_no_metric hpop hmet]
      exact ⟨rfl, rfl⟩
    | some met =>
      simp only [FlatAccnt.evict, hpop, hmet]
      obtain ⟨-, hm, hca, -, -, -⟩ := @foldl_evictStep_pres target.Metric
        (List.insertionSort (fun x y => x ≤ y)
          ((met.chunks.map Prod.fst).filter (fun ts => ts ≤ target.Ts)))
        met { a with lru := lruRest }
      constructor <;> split <;> simp [hm, hca]

lemma drainFuel_some : ∀ (n : Nat) (a : FlatAccnt), Inv a →
    a.lru.items.length < n →
    ∃ b, drainFuel n a = some b ∧ Inv b ∧ b.maxSize = a.maxSize ∧
      b.cacheSizeUsed ≤ b.maxSize ∧ b.cacheChunkAdd = a.cacheChunkAdd := by
  intro n
  induction n with
  | zero =>
    intro a _ hlt
    omega
  | succ n ih =>
    intro a h hlt
    by_cases hcond : a.maxSize < a.cacheSizeUsed
    · have hne : a.cacheSizeUsed ≠ 0 := by omega
      have hnil := inv_used_ne_zero_lru h hne
      rcases hl : a.lru.items with _ | ⟨x, xs⟩
      · exact absurd hl hnil
      · have hshrink := evict_shrink hl
        have hlen : (a.evict).lru.items.length < n := by
          rw [hl] at hlt hshrink
          simp only [List.length_cons] at hlt hshrink
          omega
        rcases ih a.evict (inv_evict h) hlen with ⟨b, hb, hbinv, hbmax, hble, hbca⟩
        refine ⟨b, ?_, hbinv, ?_, hble, ?_⟩
        · rw [show drainFuel (n + 1) a = drainFuel n a.evict from by
            simp [drainFuel, hcond]]
          exact hb
        · rw [hbmax, (evict_pres_fields a).1]
        · rw [hbca, (evict_pres_fields a).2]
    · refine ⟨a, ?_, h, rfl, by omega, rfl⟩
      simp [drainFuel, hcond]

lemma drain_some {a : FlatAccnt} (h : Inv a) :
    ∃ b, a.drain = some b ∧ Inv b ∧ b.maxSize = a.maxSize ∧
      b.cacheSizeUsed ≤ b.maxSize ∧ b.cacheChunkAdd = a.cacheChunkAdd :=
  drainFuel_some _ a h (Nat.lt_succ_self _)

lemma processEvent_maxSize (a : FlatAccnt) (e : FlatAccntEvent) :
    (a.processEvent e).maxSize = a.maxSize := by
  cases e with
  | add metric ts size =>
    simp only [FlatAccnt.processEvent]
    cases hm : alGet metric a.metrics with
    | some met =>
      cases ht : alGet ts met.chunks with
      | some s0 => rw [add_eq_of_present hm ht]
      | none => rw [add_eq_of_new_chunk hm ht]
    | none => rw [add_eq_of_new_metric hm]
  | delMet metric =>
    simp only [FlatAccnt.processEvent]
    cases hm : alGet metric a.metrics with
    | none => rw [delMet_eq_of_none hm]
    | some met => rw [delMet_eq_of_some hm]
  | hit metric ts => rfl
  | getTotal => rfl
  | reset => rfl
  | stop => rfl

lemma runEvents_cons_ne_stop {a : FlatAccnt} {e : FlatAccntEvent}
    {es : List FlatAccntEvent} (h : e ≠ FlatAccntEvent.stop) :
    runEvents a (e :: es) =
      match (a.processEvent e).drain with
      | none => none
      | some a1 => runEvents a1 es := by
  cases e with
  | stop => exact absurd rfl h
  | add m t s => rfl
  | hit m t => rfl
  | delMet m => rfl
  | getTotal => rfl
  | reset => rfl

lemma runEvents_master : ∀ (es : List FlatAccntEvent) (a : FlatAccnt), Inv a →
    ∃ b, runEvents a es = some b ∧ Inv b ∧ b.maxSize = a.maxSize ∧
      (a.cacheSizeUsed ≤ a.maxSize → b.cacheSizeUsed ≤ b.maxSize) := by
  intro es
  induction es with
  | nil =>
    intro a h
    exact ⟨a, rfl, h, rfl, fun hle => hle⟩
  | cons e rest ih =>
    intro a h
    by_cases hstop : e = FlatAccntEvent.stop
    · subst hstop
      exact ⟨a, rfl, h, rfl, fun hle => hle⟩
    · rw [runEvents_cons_ne_stop hstop]
      rcases drain_some (inv_processEvent h e) with ⟨a1, h1, hinv1, hmax1, hle1, -⟩
      rcases ih a1 hinv1 with ⟨b, hb, hbinv, hbmax, hbimp⟩
      refine ⟨b, ?_, hbinv, ?_, fun _ => hbimp hle1⟩
      · rw [h1]
        exact hb
      · rw [hbmax, hmax1, processEvent_maxSize]

/-! ### Further helper lemmas used by the claim theorems -/

lemma drain_of_le {a : FlatAccnt} (h : ¬ a.maxSize < a.cacheSizeUsed) :
    a.drain = some a := by
  unfold FlatAccnt.drain
  simp [drainFuel, h]

lemma drainFuel_chunkAdd : ∀ (n : Nat) (a b : FlatAccnt),
    drainFuel n a = some b → b.cacheChunkAdd = a.cacheChunkAdd := by
  intro n
  induction n with
  | zero =>
    intro a b h
    simp only [drainFuel] at h
    split at h
    · cases h
    · rw [Option.some.inj h]
  | succ n ih =>
    intro a b h
    simp only [drainFuel] at h
    split at h
    · rw [ih a.evict b h, (evict_pres_fields a).2]
    · rw [Option.some.inj h]

lemma runEvents_cons_drain {a a1 : FlatAccnt} {e : FlatAccntEvent}
    {es : List FlatAccntEvent} (hne : e ≠ FlatAccntEvent.stop)
    (h : (a.processEvent e).drain = some a1) :
    runEvents a (e :: es) = runEvents a1 es := by
  rw [runEvents_cons_ne_stop hne, h]

/-! ### The claim theorems -/

/-- C2: for every finite event sequence processed from the initial state
with any configured max, event processing never diverges and after the
final eviction drain step used is at most max (so in particular used is at
most max or the Recency Index is empty). -/
theorem c2_drain_bound (mx : Nat) (es : List FlatAccntEvent) :
    ∃ b, runEvents (NewFlatAccnt mx) es = some b ∧
      (b.cacheSizeUsed ≤ mx ∨ b.lru.items = []) := by
  rcases runEvents_master es (NewFlatAccnt mx) (inv_new mx) with ⟨b, hb, -, hbmax, himp⟩
  refine ⟨b, hb, Or.inl ?_⟩
  have h0 : (NewFlatAccnt mx).cacheSizeUsed ≤ (NewFlatAccnt mx).maxSize := by
    simp [NewFlatAccnt]
  have h1 := himp h0
  rw [hbmax] at h1
  exact h1

/-- C9: the eviction drain loop terminates for every reachable accountant
state: running any event sequence from the initial state, with the drain
loop after each event given fuel bounded by the Recency Index size, always
produces a result (a divergence of the drain loop would surface as none). -/
theorem c9_run_terminates (mx : Nat) (es : List FlatAccntEvent) :
    (runEvents (NewFlatAccnt mx) es).isSome = true := by
  rcases runEvents_master es (NewFlatAccnt mx) (inv_new mx) with ⟨b, hb, -⟩
  rw [hb]
  rfl

/-- C3 counterexample: with max_bytes = 0 the budget is not disabled; a
single AddChunk of size 10 immediately triggers an eviction, pushing the
chunk onto the evict queue. -/
theorem c3_counterexample :
    (runEvents (NewFlatAccnt 0) [FlatAccntEvent.add "a" 1 10]).map
      (fun b => b.evictQ) = some [EvictTarget.mk "a" 1] := by decide

/-- C3 amended: constructing the accountant with max_bytes = 0 behaves as
a zero-byte budget rather than disabling eviction: after any event
sequence the drain loop has evicted everything, leaving used = 0. -/
theorem c3_zero_budget_drains (es : List FlatAccntEvent) :
    ∃ b, runEvents (NewFlatAccnt 0) es = some b ∧ b.cacheSizeUsed = 0 := by
  rcases runEvents_master es (NewFlatAccnt 0) (inv_new 0) with ⟨b, hb, -, hbmax, himp⟩
  refine ⟨b, hb, ?_⟩
  have h0 : (NewFlatAccnt 0).cacheSizeUsed ≤ (NewFlatAccnt 0).maxSize := by
    simp [NewFlatAccnt]
  have h1 := himp h0
  rw [hbmax] at h1
  simp only [NewFlatAccnt] at h1
  omega

/-- C10: in every state reachable from the initial state by processing
events, every chunk present in the Byte Ledger is also present in the
Recency Index (the index is a superset of the ledger chunks). -/
theorem c10_ledger_subset_invariant (mx : Nat) (es : List FlatAccntEvent)
    (b : FlatAccnt) (hrun : runEvents (NewFlatAccnt mx) es = some b) :
    ∀ p ∈ b.metrics, ∀ c ∈ p.2.chunks, EvictTarget.mk p.1 c.1 ∈ b.lru.items := by
  rcases runEvents_master es (NewFlatAccnt mx) (inv_new mx) with ⟨b2, hb2, hinv, -, -⟩
  rw [hrun] at hb2
  have hb : b = b2 := Option.some.inj hb2
  subst hb
  exact hinv.ledgerSub

theorem c10_witness : EvictTarget.mk "a" 1 ∈ wit10.lru.items :=
  c10_ledger_subset_invariant 100 [FlatAccntEvent.add "a" 1 10] wit10 (by decide)
    ("a", FlatAccntMet.mk 10 [(1, 10)]) (by decide) (1, 10) (by decide)

/-- C4 counterexample: after processing a single HitChunk for a chunk the
ledger has never seen, the accountant is quiescent, the Recency Index
holds ("a", 1), and the Byte Ledger is empty: the recency-to-ledger
direction of the correspondence fails. -/
theorem c4_counterexample :
    (runEvents (NewFlatAccnt 100) [FlatAccntEvent.hit "a" 1]).map
      (fun b => (b.metrics, b.lru.items)) =
    some ([], [EvictTarget.mk "a" 1]) := by decide

/-- C4 amended: between events only one direction of the correspondence
holds: every chunk entry in the Byte Ledger has its ChunkId in the Recency
Index; the index may additionally hold ChunkIds with no ledger entry
(created by hits on unknown chunks and by evictions of sibling chunks). -/
theorem c4_ledger_subset_recency (mx : Nat) (es : List FlatAccntEvent)
    (b : FlatAccnt) (hrun : runEvents (NewFlatAccnt mx) es = some b)
    (m : String) (met : FlatAccntMet) (hm : alGet m b.metrics = some met)
    (c : Nat × Nat) (hc : c ∈ met.chunks) :
    EvictTarget.mk m c.1 ∈ b.lru.items := by
  rcases runEvents_master es (NewFlatAccnt mx) (inv_new mx) with ⟨b2, hb2, hinv, -, -⟩
  rw [hrun] at hb2
  have hb : b = b2 := Option.some.inj hb2
  subst hb
  exact hinv.ledgerSub (m, met) (alGet_mem hm) c hc

theorem c4_witness : EvictTarget.mk "b" 2 ∈ wit4.lru.items :=
  c4_ledger_subset_recency 50 [FlatAccntEvent.add "b" 2 5] wit4 (by decide)
    "b" (FlatAccntMet.mk 5 [(2, 5)]) (by decide) (2, 5) (by decide)

/-- C5 counterexample: max = 25; after filling with three chunks of metric
"a" and touching ts 1, the triggered evict pops ("a", 2) and evicts both
ts 1 and ts 2 (both on the evict queue), yet the victim ("a", 1) is still
present in the Recency Index afterwards: sibling victims are not deleted
from the index. -/
theorem c5_counterexample :
    (runEvents (NewFlatAccnt 25)
      [FlatAccntEvent.add "a" 1 10, FlatAccntEvent.add "a" 2 10,
       FlatAccntEvent.hit "a" 1, FlatAccntEvent.add "a" 3 10]).map
      (fun b => (b.evictQ, b.lru.items)) =
    some ([EvictTarget.mk "a" 1, EvictTarget.mk "a" 2],
      [EvictTarget.mk "a" 1, EvictTarget.mk "a" 3]) := by decide

/-- C5 amended: during evict only the popped target leaves the Recency
Index: the index after evict is exactly the index left by the pop, so the
target is gone (given a duplicate-free index), and every other victim that
was present stays in the index as a stale entry. -/
theorem c5_only_target_removed {a : FlatAccnt} {target : EvictTarget}
    {lruRest : LRU} (hpop : a.lru.pop = (some target, lruRest))
    (hnd : a.lru.items.Nodup) :
    (a.evict).lru = lruRest ∧ target ∉ (a.evict).lru.items := by
  have h1 := evict_lru_of_pop_some hpop
  have hitems := pop_some_items hpop
  refine ⟨h1, ?_⟩
  rw [h1]
  rw [hitems] at hnd
  exact (List.nodup_cons.mp hnd).1

theorem c5_witness :
    (wit5.evict).lru = LRU.mk [] ∧
      EvictTarget.mk "a" 1 ∉ (wit5.evict).lru.items :=
  c5_only_target_removed
    (show wit5.lru.pop = (some (EvictTarget.mk "a" 1), LRU.mk []) from by decide)
    (by decide)

/-- C6 counterexample: two identical AddChunk events for ("a", 1); the
second one finds the chunk already in the ledger, yet cache_chunk_add ends
at 2, not 1: the counter is incremented for the duplicate as well. -/
theorem c6_counterexample :
    (runEvents (NewFlatAccnt 100)
      [FlatAccntEvent.add "a" 1 10, FlatAccntEvent.add "a" 1 10]).map
      (fun b => b.cacheChunkAdd) = some 2 := by decide

/-- C6 amended: cache_chunk_add is incremented exactly once for every
processed AddChunk event, whether or not the (metric, ts) pair was already
present in the ledger. -/
theorem c6_add_counts_every_add {a b : FlatAccnt} {m : String} {t s : Nat}
    (h : (a.processEvent (FlatAccntEvent.add m t s)).drain = some b) :
    b.cacheChunkAdd = a.cacheChunkAdd + 1 := by
  have h1 : (a.processEvent (FlatAccntEvent.add m t s)).cacheChunkAdd =
      a.cacheChunkAdd + 1 := by
    simp only [FlatAccnt.processEvent]
    cases hm : alGet m a.metrics with
    | some met =>
      cases ht : alGet t met.chunks with
      | some s0 => rw [add_eq_of_present hm ht]
      | none => rw [add_eq_of_new_chunk hm ht]
    | none => rw [add_eq_of_new_metric hm]
  unfold FlatAccnt.drain at h
  rw [drainFuel_chunkAdd _ _ _ h, h1]

theorem c6_witness : wit6.cacheChunkAdd = (NewFlatAccnt 100).cacheChunkAdd + 1 :=
  c6_add_counts_every_add
    (show ((NewFlatAccnt 100).processEvent
      (FlatAccntEvent.add "a" 1 10)).drain = some wit6 from by decide)

/-- C7 counterexample: from the reachable state holding chunk ("a", 5) of
size 8 with max = 10, one AddChunk("a", 1, 10) leaves used = 0 (the add
itself is evicted together with its older sibling), while applying the
same AddChunk twice in succession leaves used = 10: the second application
changes the state and used grows. -/
theorem c7_counterexample :
    (runEvents (NewFlatAccnt 10)
      [FlatAccntEvent.add "a" 5 8, FlatAccntEvent.add "a" 1 10]).map
      (fun b => b.cacheSizeUsed) = some 0 ∧
    (runEvents (NewFlatAccnt 10)
      [FlatAccntEvent.add "a" 5 8, FlatAccntEvent.add "a" 1 10,
       FlatAccntEvent.add "a" 1 10]).map
      (fun b => b.cacheSizeUsed) = some 10 := ⟨by decide, by decide⟩

/-- C7 amended: the ledger add operation is idempotent: a second add for
the same (metric, ts, size) is an exact no-op on the accountant state
(ledger entry, metric total and used all unchanged). At the full event
level a second AddChunk may change the state when the eviction drain
removed the chunk in between. -/
theorem c7_ledger_add_idempotent (a : FlatAccnt) (m : String) (t s : Nat) :
    (a.add m t s).add m t s = a.add m t s := by
  cases hm : alGet m a.metrics with
  | some met =>
    cases ht : alGet t met.chunks with
    | some s0 => rw [add_eq_of_present hm ht, add_eq_of_present hm ht]
    | none =>
      rw [add_eq_of_new_chunk hm ht]
      have hm2 : alGet m (alSet m
          (FlatAccntMet.mk (uadd met.total s) (alSet t s met.chunks)) a.metrics) =
          some (FlatAccntMet.mk (uadd met.total s) (alSet t s met.chunks)) :=
        alGet_alSet_self
      have ht2 : alGet t (alSet t s met.chunks) = some s := alGet_alSet_self
      exact add_eq_of_present hm2 ht2
  | none =>
    rw [add_eq_of_new_metric hm]
    have hm2 : alGet m (alSet m
        (FlatAccntMet.mk (uadd 0 s) [(t, s)]) a.metrics) =
        some (FlatAccntMet.mk (uadd 0 s) [(t, s)]) := alGet_alSet_self
    have ht2 : alGet t [(t, s)] = some s := by simp [alGet]
    exact add_eq_of_present hm2 ht2

/-- C1: when evict pops a target whose metric is live in the ledger, the
evicted chunks are exactly those of that metric with ts at most target.Ts;
they are pushed on the evict queue in ascending-ts order, their summed
size is subtracted from used and from the metric total, they are removed
from the chunk map, and the metric entry is removed exactly when its total
reaches zero. -/
theorem c1_evict_from_spec {a : FlatAccnt} {target : EvictTarget}
    {lruRest : LRU} {met : FlatAccntMet}
    (hpop : a.lru.pop = (some target, lruRest))
    (hmet : alGet target.Metric a.metrics = some met)
    (htot : met.total < U64)
    (husd : a.cacheSizeUsed < U64)
    (hnd : (met.chunks.map Prod.fst).Nodup) :
    ∃ tss : List Nat,
      tss.Perm ((met.chunks.map Prod.fst).filter (fun ts => ts ≤ target.Ts)) ∧
      List.Sorted (fun x y => x ≤ y) tss ∧
      (a.evict).evictQ =
        a.evictQ ++ tss.map (fun ts => EvictTarget.mk target.Metric ts) ∧
      (a.evict).cacheSizeUsed = usub a.cacheSizeUsed (victimSize met target.Ts) ∧
      (alGet target.Metric (a.evict).metrics =
        if usub met.total (victimSize met target.Ts) = 0 then none
        else some (FlatAccntMet.mk (usub met.total (victimSize met target.Ts))
          (met.chunks.filter (fun c => !decide (c.1 ≤ target.Ts))))) := by
  refine ⟨victims met target.Ts, victims_perm met target.Ts,
    victims_sorted met target.Ts, ?_, ?_, ?_⟩
  · rw [evict_eq hpop hmet htot husd hnd]
  · rw [evict_eq hpop hmet htot husd hnd]
  · rw [evict_eq hpop hmet htot husd hnd]
    by_cases h0 : usub met.total (victimSize met target.Ts) = 0
    · simp only [h0, if_true, ite_true]
      exact alGet_alErase_self
    · simp only [h0, if_false, ite_false]
      exact alGet_alSet_self

theorem c1_witness :
    ∃ tss : List Nat,
      tss.Perm (((FlatAccntMet.mk 20 [(1, 10), (2, 10)]).chunks.map Prod.fst).filter
        (fun ts => ts ≤ (EvictTarget.mk "a" 1).Ts)) ∧
      List.Sorted (fun x y => x ≤ y) tss ∧
      (wit1.evict).evictQ = wit1.evictQ ++
        tss.map (fun ts => EvictTarget.mk (EvictTarget.mk "a" 1).Metric ts) ∧
      (wit1.evict).cacheSizeUsed = usub wit1.cacheSizeUsed
        (victimSize (FlatAccntMet.mk 20 [(1, 10), (2, 10)]) (EvictTarget.mk "a" 1).Ts) ∧
      (alGet (EvictTarget.mk "a" 1).Metric (wit1.evict).metrics =
        if usub (FlatAccntMet.mk 20 [(1, 10), (2, 10)]).total
            (victimSize (FlatAccntMet.mk 20 [(1, 10), (2, 10)])
              (EvictTarget.mk "a" 1).Ts) = 0 then none
        else some (FlatAccntMet.mk
          (usub (FlatAccntMet.mk 20 [(1, 10), (2, 10)]).total
            (victimSize (FlatAccntMet.mk 20 [(1, 10), (2, 10)])
              (EvictTarget.mk "a" 1).Ts))
          ((FlatAccntMet.mk 20 [(1, 10), (2, 10)]).chunks.filter
            (fun c => !decide (c.1 ≤ (EvictTarget.mk "a" 1).Ts))))) :=
  c1_evict_from_spec
    (show wit1.lru.pop =
      (some (EvictTarget.mk "a" 1), LRU.mk [EvictTarget.mk "a" 2]) from by decide)
    (by decide) (by decide) (by decide) (by decide)

/-- C8: from any state in which metric m is absent from the ledger, if the
added bytes stay within the budget (so no eviction is triggered in
between), processing AddChunk(m, t, s) followed by DelMetric(m) returns
used to its pre-add value, leaves no recency entry for (m, t), and pushes
nothing onto the evict queue. -/
theorem c8_round_trip {a : FlatAccnt} {m : String} {t s : Nat}
    (hm : alGet m a.metrics = none)
    (hle : a.cacheSizeUsed + s ≤ a.maxSize)
    (hlt : a.cacheSizeUsed + s < U64) :
    ∃ b, runEvents a [FlatAccntEvent.add m t s, FlatAccntEvent.delMet m] = some b ∧
      b.cacheSizeUsed = a.cacheSizeUsed ∧
      (∀ x ∈ b.lru.items, x ≠ EvictTarget.mk m t) ∧
      b.evictQ = a.evictQ := by
  have hlt2 : a.cacheSizeUsed + s < 18446744073709551616 := by
    rw [← U64_eq]
    exact hlt
  have hu1 : uadd a.cacheSizeUsed s = a.cacheSizeUsed + s := by
    simp only [uadd, U64_eq]
    omega
  have hproc1 : a.processEvent (FlatAccntEvent.add m t s) =
      { a with
        metrics := alSet m (FlatAccntMet.mk (uadd 0 s) [(t, s)]) a.metrics
        cacheMetricAdd := a.cacheMetricAdd + 1
        cacheSizeUsed := uadd a.cacheSizeUsed s
        cacheChunkAdd := a.cacheChunkAdd + 1
        lru := a.lru.touch (EvictTarget.mk m t) } := by
    simp only [FlatAccnt.processEvent]
    rw [add_eq_of_new_metric hm]
  have hdrain1 : (a.processEvent (FlatAccntEvent.add m t s)).drain =
      some (a.processEvent (FlatAccntEvent.add m t s)) := by
    apply drain_of_le
    rw [hproc1]
    dsimp only
    rw [hu1]
    omega
  have hm2 : alGet m (a.processEvent (FlatAccntEvent.add m t s)).metrics =
      some (FlatAccntMet.mk (uadd 0 s) [(t, s)]) := by
    rw [hproc1]
    exact alGet_alSet_self
  have hproc2 : (a.processEvent (FlatAccntEvent.add m t s)).processEvent
      (FlatAccntEvent.delMet m) =
      { a with
        metrics := alErase m (alSet m (FlatAccntMet.mk (uadd 0 s) [(t, s)]) a.metrics)
        cacheMetricAdd := a.cacheMetricAdd + 1
        cacheChunkAdd := a.cacheChunkAdd + 1
        cacheSizeUsed := usub (uadd a.cacheSizeUsed s) (uadd 0 s)
        lru := (a.lru.touch (EvictTarget.mk m t)).del (EvictTarget.mk m t) } := by
    show (a.processEvent (FlatAccntEvent.add m t s)).delMet m = _
    rw [delMet_eq_of_some hm2, hproc1]
    rfl
  have hused2 : usub (uadd a.cacheSizeUsed s) (uadd 0 s) = a.cacheSizeUsed := by
    simp only [uadd, usub, U64_eq]
    omega
  have hdrain2 : ((a.processEvent (FlatAccntEvent.add m t s)).processEvent
      (FlatAccntEvent.delMet m)).drain =
      some ({ a with
        metrics := alErase m (alSet m (FlatAccntMet.mk (uadd 0 s) [(t, s)]) a.metrics)
        cacheMetricAdd := a.cacheMetricAdd + 1
        cacheChunkAdd := a.cacheChunkAdd + 1
        cacheSizeUsed := usub (uadd a.cacheSizeUsed s) (uadd 0 s)
        lru := (a.lru.touch (EvictTarget.mk m t)).del (EvictTarget.mk m t) }) := by
    rw [hproc2]
    apply drain_of_le
    dsimp only
    rw [hused2]
    omega
  have hne1 : (FlatAccntEvent.add m t s) ≠ FlatAccntEvent.stop := by
    intro hcon
    cases hcon
  have hne2 : (FlatAccntEvent.delMet m) ≠ FlatAccntEvent.stop := by
    intro hcon
    cases hcon
  refine ⟨{ a with
      metrics := alErase m (alSet m (FlatAccntMet.mk (uadd 0 s) [(t, s)]) a.metrics)
      cacheMetricAdd := a.cacheMetricAdd + 1
      cacheChunkAdd := a.cacheChunkAdd + 1
      cacheSizeUsed := usub (uadd a.cacheSizeUsed s) (uadd 0 s)
      lru := (a.lru.touch (EvictTarget.mk m t)).del (EvictTarget.mk m t) },
    ?_, ?_, ?_, ?_⟩
  · rw [runEvents_cons_drain hne1 hdrain1, runEvents_cons_drain hne2 hdrain2]
    rfl
  · exact hused2
  · intro x hx
    exact (mem_del_iff.mp hx).2
  · rfl

theorem c8_witness :
    alGet "a" (NewFlatAccnt 100).metrics = none ∧
    (NewFlatAccnt 100).cacheSizeUsed + 10 ≤ (NewFlatAccnt 100).maxSize ∧
    (NewFlatAccnt 100).cacheSizeUsed + 10 < U64 ∧
    (∃ b, runEvents (NewFlatAccnt 100)
        [FlatAccntEvent.add "a" 3 10, FlatAccntEvent.delMet "a"] = some b ∧
      b.cacheSizeUsed = (NewFlatAccnt 100).cacheSizeUsed ∧
      (∀ x ∈ b.lru.items, x ≠ EvictTarget.mk "a" 3) ∧
      b.evictQ = (NewFlatAccnt 100).evictQ) :=
  ⟨by decide, by decide, by decide,
    c8_round_trip (by decide) (by decide) (by decide)⟩

end Accnt
